import Mathlib

/-!
Shallow embedding of libroarchive's archive façade and tar backend
(src/roarchive/roarchive.cpp, src/roarchive/tarball.cpp), with theorems
checking the specification's statements about them.

Paths are modelled as their component lists (boost::filesystem::path),
raw path strings as character lists, machine sizes as natural numbers.
-/

namespace Roarchive

/-- A filesystem path as its sequence of components (models
boost::filesystem::path). -/
abbrev Path := List String

/-- boost path::filename(): the last component, empty for the empty path. -/
def pathFilename (p : Path) : String := p.getLast?.getD ""

/-- boost path::parent_path(): the path without its last component. -/
def parentPath (p : Path) : Path := p.dropLast

/-- utility::isPathPrefix(path, prefix): the prefix's components lead the
path's components. -/
def isPathPrefix (p pre : Path) : Bool := pre.isPrefixOf p

/-- utility::cutPathPrefix(path, prefix): drop the prefix's components. -/
def cutPathPrefix (p pre : Path) : Path := p.drop pre.length

/-- path.string(): render components joined by the separator. -/
def renderPath (p : Path) : String := String.intercalate "/" p

/-- Error kinds surfaced by the layer. notAnArchive models the typed
exception thrown by RoArchive::factory; notFound and ioError model the
spec's taxonomy (declared in error.hpp, which is outside src/);
runtimeError models a plain std::runtime_error as thrown by
LOGTHROW(err2, std::runtime_error) in tarball.cpp. -/
inductive ArchiveError where
  | notAnArchive (mime : String)
  | notFound (msg : String)
  | ioError (msg : String)
  | runtimeError (msg : String)
deriving DecidableEq

/-- Whether an error is the spec taxonomy's NotFound kind. -/
def ArchiveError.isNotFound : ArchiveError → Bool
  | .notFound _ => true
  | _ => false

/-- Whether a fallible computation failed with the NotFound error kind. -/
def errIsNotFound {α : Type} : Except ArchiveError α → Bool
  | .error e => e.isNotFound
  | .ok _ => false

/-- Whether a fallible computation succeeded. -/
def exceptIsOk {α : Type} : Except ArchiveError α → Bool
  | .error _ => false
  | .ok _ => true

/-- utility::io::SubStreamDevice::Filedes: a shared low-level descriptor
handle plus the byte range [start, stop) of one member.  The field `stop`
models the descriptor's `end` offset (`end` is a Lean keyword). -/
structure Filedes where
  fd : Nat
  start : Nat
  stop : Nat
deriving DecidableEq

/-- A member record of utility::tar::Reader::File: path, start offset and
end offset (`file.end()` as the reader computes it); `stop` models `end`. -/
structure TarFile where
  path : Path
  start : Nat
  stop : Nat
deriving DecidableEq

/-- First index of an element in a list (none when absent), scanning in
ascending order. -/
def firstIdx {α : Type} [DecidableEq α] (x : α) : List α → Option Nat
  | [] => none
  | a :: rest => if a = x then some 0 else (firstIdx x rest).map (· + 1)

/-- std::string::find of a single character: the index of its first
occurrence in the string. -/
def strFind (c : Char) (s : List Char) : Option Nat := firstIdx c s

/-- The inline-hint split at the head of RoArchive::factory
(roarchive.cpp:50-59): when a marker character is configured and occurs in
the path string, the part before its first occurrence becomes the path
actually opened, and the part after it becomes the hint, replacing any
hint supplied through the options. -/
def splitInlineHint (marker : Option Char) (path : List Char)
    (hint : Option (List Char)) : List Char × Option (List Char) :=
  match marker with
  | none => (path, hint)
  | some c =>
    match strFind c path with
    | none => (path, hint)
    | some i => (path.take i, some (path.drop (i + 1)))

/-- A member input stream viewed as a byte source: its bytes, the size the
stream already knows (IStream::size_, when any), and whether the stream
supports seeking (IStream::seekable_). -/
structure MemStream where
  data : List Nat
  size : Option Nat
  seekable : Bool
deriving DecidableEq

/-- utility::binaryio::read with stream exceptions enabled: yields exactly
n bytes from the start of the source, and fails (failbit raises) when
fewer than n bytes are available. -/
def binRead (s : List Nat) (n : Nat) : Option (List Nat) :=
  if n ≤ s.length then some (s.take n) else none

/-- Strategy (1) of IStream::read: the size is known, allocate exactly
that many bytes and read fully. -/
def readKnownSize (s : MemStream) (n : Nat) : Option (List Nat) :=
  binRead s.data n

/-- Strategy (2) of IStream::read: seek to the end to measure the length,
seek back, allocate and read fully. -/
def readSeekable (s : MemStream) : Option (List Nat) :=
  binRead s.data s.data.length

/-- Strategy (3) of IStream::read: boost::iostreams::copy into a
dynamically grown buffer. -/
def readCopy (s : MemStream) : Option (List Nat) :=
  some s.data

/-- IStream::read (roarchive.cpp:156-179): whole-content read, selecting
the strategy in priority order — known size first, then seekable
measurement, then generic copy. -/
def IStream.read (s : MemStream) : Option (List Nat) :=
  match s.size with
  | some n => readKnownSize s n
  | none => if s.seekable then readSeekable s else readCopy s

/-- The TarIStream state recorded by its constructor (tarball.cpp:43-68):
the member path, size_ = fd.end - fd.start, and the installed internal
buffer's capacity (1 << 16 bytes via pubsetbuf). -/
structure TarIStream where
  path : Path
  size : Nat
  bufSize : Nat
deriving DecidableEq

/-- TarIStream::TarIStream: record the byte range's length and install the
64 KiB internal buffer. -/
def TarIStream.create (p : Path) (fd : Filedes) : TarIStream :=
  ⟨p, fd.stop - fd.start, 1 <<< 16⟩

/-- The TarIStream::size() override: the known size, always present. -/
def TarIStream.reportedSize (s : TarIStream) : Option Nat := some s.size

/-- tarball.cpp findPrefix: the parent directory of the first member whose
filename equals the hint; throws std::runtime_error naming the hint and
the archive when no member matches. -/
def findPrefix (archivePath : String) (hint : String) :
    List TarFile → Except ArchiveError Path
  | [] => .error (.runtimeError
      ("No \"" ++ hint ++ "\" found in the tarball archive at \""
        ++ archivePath ++ "\"."))
  | f :: rest =>
    if pathFilename f.path = hint then .ok (parentPath f.path)
    else findPrefix archivePath hint rest

/-- Lookup in the association-list model of std::map<std::string, Filedes>:
the value bound to an exactly matching key. -/
def mapFind (k : Path) : List (Path × Filedes) → Option Filedes
  | [] => none
  | e :: rest => if k = e.1 then some e.2 else mapFind k rest

/-- std::map::insert: binds the key only when it is absent; an existing
binding is never overwritten. -/
def mapInsert (m : List (Path × Filedes)) (k : Path) (v : Filedes) :
    List (Path × Filedes) :=
  if (mapFind k m).isSome then m else m ++ [(k, v)]

/-- The insertion loop of TarIndex::TarIndex (tarball.cpp:98-105): for
each member whose path lies under the prefix, insert the stripped path
bound to the descriptor (fd, start, end); other members are skipped. -/
def buildEntries (fd : Nat) (pre : Path) :
    List TarFile → List (Path × Filedes) → List (Path × Filedes)
  | [], acc => acc
  | f :: rest, acc =>
    buildEntries fd pre rest
      (if isPathPrefix f.path pre then
        mapInsert acc (cutPathPrefix f.path pre) ⟨fd, f.start, f.stop⟩
      else acc)

/-- The tar index: the archive's own path and the immutable member map. -/
structure TarIndex where
  archivePath : String
  entries : List (Path × Filedes)
deriving DecidableEq

/-- TarIndex::TarIndex (tarball.cpp:90-106): resolve the prefix — the
anchor's parent directory via findPrefix when a hint is given, the empty
path otherwise — then build the index over the member list. -/
def TarIndex.build (fd : Nat) (archivePath : String) (hint : Option String)
    (files : List TarFile) : Except ArchiveError TarIndex :=
  match hint with
  | some h =>
    match findPrefix archivePath h files with
    | .ok pre => .ok ⟨archivePath, buildEntries fd pre files []⟩
    | .error e => .error e
  | none => .ok ⟨archivePath, buildEntries fd [] files []⟩

/-- TarIndex::file (tarball.cpp:108-116): exact lookup of the stripped
relative path; absence throws std::runtime_error naming the requested
member and the archive path. -/
def TarIndex.file (idx : TarIndex) (p : Path) : Except ArchiveError Filedes :=
  match mapFind p idx.entries with
  | some v => .ok v
  | none => .error (.runtimeError
      ("File \"" ++ renderPath p ++ "\" not found in the archive at \""
        ++ idx.archivePath ++ "\"."))

/-- Modelled from the spec: the tar backend's listMembers (Tarball::list is
not under src/) — "tarball backend returns from its fixed index": the
member paths recorded in the index. -/
def TarIndex.listMembers (idx : TarIndex) : List Path :=
  idx.entries.map Prod.fst

/-- Modelled from the spec: the tar backend's exists (not under src/) —
membership of the stripped relative path in the fixed index. -/
def TarIndex.memberExists (idx : TarIndex) (p : Path) : Bool :=
  (mapFind p idx.entries).isSome

/-- The backend selected by RoArchive::factory; the tarball variant holds
the index its construction built, the other variants are external
collaborators. -/
inductive Backend where
  | directory
  | tarball (index : TarIndex)
  | zip
  | http
deriving DecidableEq

/-- The dispatch of RoArchive::factory on the resolved type token
(roarchive.cpp:76-85).  hasHttp models the ROARCHIVE_HAS_HTTP compile
flag; the member list and descriptor stand in for what
utility::tar::Reader reads from the archive on disk. -/
def factory (hasHttp : Bool) (magic : String) (archivePath : String)
    (fd : Nat) (files : List TarFile) (hint : Option String) :
    Except ArchiveError Backend :=
  if magic = "inode/directory" then .ok .directory
  else if magic = "application/x-tar" then
    (TarIndex.build fd archivePath hint files).map Backend.tarball
  else if magic = "application/zip" then .ok .zip
  else if hasHttp = true ∧ magic = "http" then .ok .http
  else .error (.notAnArchive magic)

/-- FileHint::Matcher state: the candidate list hint_, bestIndex_ and
bestMatch_. -/
structure Matcher where
  hint : List String
  bestIndex : Nat
  bestMatch : Path
deriving DecidableEq

/-- Modelled from the spec: the matcher's initial state (FileHint::Matcher's
constructor lives in roarchive.hpp, outside src/) — "bestIndex initialized
to the candidate-list length", bestMatch initially empty. -/
def Matcher.init (hint : List String) : Matcher := ⟨hint, hint.length, []⟩

/-- FileHint::Matcher::operator() (roarchive.cpp:226-240): compare the
path's filename against the candidates at indices strictly below
bestIndex_ in ascending order; on the first match record the index and the
path; return whether bestIndex_ is zero after the update. -/
def Matcher.feed (m : Matcher) (p : Path) : Matcher × Bool :=
  match firstIdx (pathFilename p) (m.hint.take m.bestIndex) with
  | some i => (⟨m.hint, i, p⟩, i == 0)
  | none => (m, m.bestIndex == 0)

/-- Feeding a whole sequence of observed paths through one matcher. -/
def Matcher.run (m : Matcher) (ps : List Path) : Matcher :=
  ps.foldl (fun acc p => (acc.feed p).1) m

/-- The spec's two-member example archive: members dir/a and dir/b. -/
def exFilesDir : List TarFile :=
  [⟨["dir", "a"], 0, 10⟩, ⟨["dir", "b"], 10, 20⟩]

/-- The index the build produces from exFilesDir with hint anchor a. -/
def exIndexDir : TarIndex :=
  ⟨"arch.tar", [(["a"], ⟨7, 0, 10⟩), (["b"], ⟨7, 10, 20⟩)]⟩

/-! ### Unfolding equations for the match-style definitions -/

theorem buildEntries_cons (fd : Nat) (pre : Path) (f : TarFile)
    (rest : List TarFile) (acc : List (Path × Filedes)) :
    buildEntries fd pre (f :: rest) acc
      = buildEntries fd pre rest
          (if isPathPrefix f.path pre then
            mapInsert acc (cutPathPrefix f.path pre) ⟨fd, f.start, f.stop⟩
          else acc) := rfl

theorem findPrefix_cons (ap h : String) (f : TarFile) (rest : List TarFile) :
    findPrefix ap h (f :: rest)
      = if pathFilename f.path = h then .ok (parentPath f.path)
        else findPrefix ap h rest := rfl

theorem tarIndexBuild_none (fd : Nat) (ap : String) (files : List TarFile) :
    TarIndex.build fd ap none files
      = .ok ⟨ap, buildEntries fd [] files []⟩ := rfl

theorem tarIndexBuild_some (fd : Nat) (ap : String) (h : String)
    (files : List TarFile) :
    TarIndex.build fd ap (some h) files
      = match findPrefix ap h files with
        | .ok pre => .ok ⟨ap, buildEntries fd pre files []⟩
        | .error e => .error e := rfl

/-! ### Helper lemmas about firstIdx -/

theorem firstIdx_append_cons {α : Type} [DecidableEq α] (x : α) :
    ∀ (pre suf : List α), x ∉ pre →
      firstIdx x (pre ++ x :: suf) = some pre.length
  | [], suf, _ => by simp [firstIdx]
  | a :: pre, suf, h => by
    have hax : ¬(a = x) := fun he => h (by simp [he])
    have hpre : x ∉ pre := fun hm => h (List.mem_cons_of_mem _ hm)
    simp [firstIdx, hax, firstIdx_append_cons x pre suf hpre]

theorem firstIdx_none_iff {α : Type} [DecidableEq α] (x : α) :
    ∀ l : List α, firstIdx x l = none ↔ x ∉ l
  | [] => by simp [firstIdx]
  | a :: rest => by
    by_cases ha : a = x
    · simp [firstIdx, ha]
    · simp only [firstIdx, if_neg ha, Option.map_eq_none', List.mem_cons,
        firstIdx_none_iff x rest]
      constructor
      · intro hn hor
        rcases hor with he | hm
        · exact ha he.symm
        · exact hn hm
      · intro hn hm
        exact hn (Or.inr hm)

theorem firstIdx_some_spec {α : Type} [DecidableEq α] (x d : α) :
    ∀ (l : List α) (i : Nat), firstIdx x l = some i →
      i < l.length ∧ l.getD i d = x ∧ ∀ j : Nat, j < i → l.getD j d ≠ x
  | [], i, h => by simp [firstIdx] at h
  | a :: rest, i, h => by
    by_cases ha : a = x
    · simp only [firstIdx, if_pos ha, Option.some.injEq] at h
      subst h
      exact ⟨by simp, by simpa using ha, by omega⟩
    · simp only [firstIdx, if_neg ha, Option.map_eq_some'] at h
      obtain ⟨i', hi', rfl⟩ := h
      obtain ⟨hlen, hget, hfst⟩ := firstIdx_some_spec x d rest i' hi'
      refine ⟨by simpa using Nat.succ_lt_succ hlen, by simpa using hget, ?_⟩
      intro j hj
      cases j with
      | zero => simpa using ha
      | succ j' =>
        simpa using hfst j' (Nat.lt_of_succ_lt_succ hj)

theorem firstIdx_eq_some_of {α : Type} [DecidableEq α] (x d : α) :
    ∀ (l : List α) (i : Nat), i < l.length → l.getD i d = x →
      (∀ j : Nat, j < i → l.getD j d ≠ x) → firstIdx x l = some i
  | [], i, h, _, _ => by simp at h
  | a :: rest, 0, _, hget, _ => by
    simp only [List.getD_cons_zero] at hget
    simp [firstIdx, hget]
  | a :: rest, i + 1, hlen, hget, hfst => by
    have ha : ¬(a = x) := by simpa using hfst 0 (Nat.succ_pos i)
    have ih := firstIdx_eq_some_of x d rest i (by simpa using hlen)
      (by simpa using hget)
      (fun j hj => by simpa using hfst (j + 1) (Nat.succ_lt_succ hj))
    simp [firstIdx, ha, ih]

theorem take_drop_marker {α : Type} (c : α) :
    ∀ (pre suf : List α),
      (pre ++ c :: suf).take pre.length = pre ∧
      (pre ++ c :: suf).drop (pre.length + 1) = suf
  | [], suf => by simp
  | a :: pre, suf => by
    have ih := take_drop_marker c pre suf
    simp only [List.cons_append, List.length_cons, List.take_succ_cons,
      List.drop_succ_cons, ih.1, ih.2, and_self]

theorem getD_take {α : Type} (d : α) :
    ∀ (l : List α) (b i : Nat), i < b → (l.take b).getD i d = l.getD i d
  | [], _, _, _ => by simp
  | _ :: _, 0, _, h => by omega
  | a :: rest, b + 1, 0, _ => by simp
  | a :: rest, b + 1, i + 1, h => by
    simp only [List.take_succ_cons, List.getD_cons_succ]
    exact getD_take d rest b i (Nat.lt_of_succ_lt_succ h)

/-- The inline-hint split at a marker occurrence, for any prefix free of the
marker. -/
theorem splitInlineHint_marker (c : Char) (pre suf : List Char)
    (hint : Option (List Char)) (h : c ∉ pre) :
    splitInlineHint (some c) (pre ++ c :: suf) hint = (pre, some suf) := by
  simp [splitInlineHint, strFind, firstIdx_append_cons c pre suf h,
    (take_drop_marker c pre suf).1, (take_drop_marker c pre suf).2]

/-- C4: for every path string containing the configured inline-hint marker,
open splits the string at the marker's first occurrence: the prefix becomes
the path actually opened and the suffix becomes the hint, replacing any hint
supplied through the options; input archive.tar#inner/hint.file with
marker '#' yields real path archive.tar and hint inner/hint.file. -/
theorem inline_hint_split (c : Char) (pre suf : List Char)
    (hint : Option (List Char)) (h : c ∉ pre) :
    splitInlineHint (some c) (pre ++ c :: suf) hint = (pre, some suf) ∧
    splitInlineHint (some '#') "archive.tar#inner/hint.file".toList hint
      = ("archive.tar".toList, some "inner/hint.file".toList) := by
  refine ⟨splitInlineHint_marker c pre suf hint h, ?_⟩
  have hs : "archive.tar#inner/hint.file".toList
      = "archive.tar".toList ++ '#' :: "inner/hint.file".toList := by decide
  rw [hs]
  exact splitInlineHint_marker '#' _ _ hint (by decide)

theorem inline_hint_split_witness :
    ('#' ∉ "abc".toList) ∧
    (splitInlineHint (some '#') ("abc".toList ++ '#' :: "de".toList) none
        = ("abc".toList, some "de".toList) ∧
      splitInlineHint (some '#') "archive.tar#inner/hint.file".toList none
        = ("archive.tar".toList, some "inner/hint.file".toList)) :=
  ⟨by decide, inline_hint_split '#' "abc".toList "de".toList none (by decide)⟩

/-- C2: the whole-content read selects strategies in priority order — known
size first, then seekable measurement, then generic copy — and on a byte
source whose reported size (when reported) is accurate, every strategy
returns content identical to the member's original bytes. -/
theorem istream_read_strategies (data : List Nat) (sz : Option Nat) (sk : Bool)
    (hacc : sz = none ∨ sz = some data.length) :
    (∀ n, sz = some n →
      IStream.read ⟨data, sz, sk⟩ = readKnownSize ⟨data, sz, sk⟩ n) ∧
    (sz = none → sk = true →
      IStream.read ⟨data, sz, sk⟩ = readSeekable ⟨data, sz, sk⟩) ∧
    (sz = none → sk = false →
      IStream.read ⟨data, sz, sk⟩ = readCopy ⟨data, sz, sk⟩) ∧
    IStream.read ⟨data, sz, sk⟩ = some data ∧
    readKnownSize ⟨data, sz, sk⟩ data.length = some data ∧
    readSeekable ⟨data, sz, sk⟩ = some data ∧
    readCopy ⟨data, sz, sk⟩ = some data := by
  refine ⟨?_, ?_, ?_, ?_, ?_, ?_, ?_⟩
  · intro n hn
    subst hn
    rfl
  · intro hn hs
    subst hn hs
    rfl
  · intro hn hs
    subst hn hs
    rfl
  · rcases hacc with hn | hn <;> subst hn
    · cases sk <;>
        simp [IStream.read, readSeekable, readCopy, binRead]
    · simp [IStream.read, readKnownSize, binRead]
  · simp [readKnownSize, binRead]
  · simp [readSeekable, binRead]
  · rfl

theorem istream_read_strategies_witness :
    ((some 3 : Option Nat) = none ∨ (some 3 : Option Nat) = some ([9, 8, 7] : List Nat).length) ∧
    IStream.read ⟨[9, 8, 7], some 3, false⟩ = some [9, 8, 7] :=
  ⟨by decide, (istream_read_strategies [9, 8, 7] (some 3) false (by decide)).2.2.2.1⟩

/-- The dispatch of RoArchive::factory on a type token matching no backend. -/
theorem factory_no_match (hasHttp : Bool) (magic archivePath : String)
    (fd : Nat) (files : List TarFile) (hint : Option String)
    (h1 : magic ≠ "inode/directory") (h2 : magic ≠ "application/x-tar")
    (h3 : magic ≠ "application/zip") (h4 : magic ≠ "http") :
    factory hasHttp magic archivePath fd files hint
      = .error (.notAnArchive magic) := by
  unfold factory
  rw [if_neg h1, if_neg h2, if_neg h3, if_neg (fun hc => h4 hc.2)]

/-- C7: a path whose resolved type token matches none of inode/directory,
application/x-tar, application/zip, or http fails with NotAnArchive carrying
the detected type string; in particular a detected type of text/plain fails
with NotAnArchive carrying text/plain. -/
theorem factory_unknown_type (hasHttp : Bool) (magic archivePath : String)
    (fd : Nat) (files : List TarFile) (hint : Option String)
    (h1 : magic ≠ "inode/directory") (h2 : magic ≠ "application/x-tar")
    (h3 : magic ≠ "application/zip") (h4 : magic ≠ "http") :
    factory hasHttp magic archivePath fd files hint
      = .error (.notAnArchive magic) ∧
    factory hasHttp "text/plain" archivePath fd files hint
      = .error (.notAnArchive "text/plain") :=
  ⟨factory_no_match hasHttp magic archivePath fd files hint h1 h2 h3 h4,
    factory_no_match hasHttp "text/plain" archivePath fd files hint
      (by decide) (by decide) (by decide) (by decide)⟩

theorem factory_unknown_type_witness :
    ("text/x-python" ≠ "inode/directory" ∧ "text/x-python" ≠ "application/x-tar"
      ∧ "text/x-python" ≠ "application/zip" ∧ "text/x-python" ≠ "http") ∧
    factory true "text/x-python" "a.py" 0 [] none
      = .error (.notAnArchive "text/x-python") :=
  ⟨by refine ⟨?_, ?_, ?_, ?_⟩ <;> decide,
    (factory_unknown_type true "text/x-python" "a.py" 0 [] none
      (by decide) (by decide) (by decide) (by decide)).1⟩

/-- C8: for a byte-range descriptor with end > start, the tar member
substream reports its known size as exactly end - start and installs an
internal fixed-size buffer of 64 KiB. -/
theorem tarIStream_size_buffer (p : Path) (fd : Filedes)
    (h : fd.start < fd.stop) :
    (TarIStream.create p fd).reportedSize = some (fd.stop - fd.start) ∧
    ((TarIStream.create p fd).size : Int) = (fd.stop : Int) - (fd.start : Int) ∧
    (TarIStream.create p fd).bufSize = 64 * 1024 := by
  refine ⟨rfl, ?_, rfl⟩
  simp only [TarIStream.create]
  omega

/-! ### Helper lemmas about the index map -/

theorem mapFind_append_some (k : Path) (v : Filedes) :
    ∀ (m l : List (Path × Filedes)),
      mapFind k m = some v → mapFind k (m ++ l) = some v
  | [], _, h => by simp [mapFind] at h
  | e :: rest, l, h => by
    by_cases hk : k = e.1
    · simp only [mapFind, if_pos hk] at h ⊢
      exact h
    · simp only [mapFind, if_neg hk] at h ⊢
      exact mapFind_append_some k v rest l h

theorem mapFind_append_none (k : Path) :
    ∀ (m l : List (Path × Filedes)),
      mapFind k m = none → mapFind k (m ++ l) = mapFind k l
  | [], _, _ => rfl
  | e :: rest, l, h => by
    by_cases hk : k = e.1
    · simp [mapFind, if_pos hk] at h
    · simp only [mapFind, if_neg hk] at h ⊢
      exact mapFind_append_none k rest l h

theorem mapFind_mapInsert_some (m : List (Path × Filedes)) (k' : Path)
    (v' : Filedes) (k : Path) (v : Filedes) (h : mapFind k m = some v) :
    mapFind k (mapInsert m k' v') = some v := by
  unfold mapInsert
  split
  · exact h
  · exact mapFind_append_some k v m [(k', v')] h

theorem mapFind_mapInsert_self (m : List (Path × Filedes)) (k : Path)
    (v : Filedes) (h : mapFind k m = none) :
    mapFind k (mapInsert m k v) = some v := by
  unfold mapInsert
  split
  · rename_i hs
    rw [h] at hs
    simp at hs
  · rw [mapFind_append_none k m _ h]
    simp [mapFind]

theorem mapFind_mapInsert_other (m : List (Path × Filedes)) (k' : Path)
    (v' : Filedes) (k : Path) (hne : k ≠ k') (h : mapFind k m = none) :
    mapFind k (mapInsert m k' v') = none := by
  unfold mapInsert
  split
  · exact h
  · rw [mapFind_append_none k m _ h]
    simp [mapFind, hne]

theorem mapFind_mapInsert_isSome (m : List (Path × Filedes)) (k' : Path)
    (v' : Filedes) (k : Path) :
    (mapFind k (mapInsert m k' v')).isSome = true ↔
      (mapFind k m).isSome = true ∨ k = k' := by
  cases hm : mapFind k m with
  | some v =>
    rw [mapFind_mapInsert_some m k' v' k v hm]
    simp
  | none =>
    by_cases hk : k = k'
    · subst hk
      rw [mapFind_mapInsert_self m k v' hm]
      simp
    · rw [mapFind_mapInsert_other m k' v' k hk hm]
      simp [hk]

theorem mapFind_mapInsert_inv (m : List (Path × Filedes)) (k' : Path)
    (v' : Filedes) (k : Path) (v : Filedes)
    (h : mapFind k (mapInsert m k' v') = some v) :
    mapFind k m = some v ∨ (k = k' ∧ v = v') := by
  cases hm : mapFind k m with
  | some w =>
    have h2 : some w = some v := by
      rw [← mapFind_mapInsert_some m k' v' k w hm]
      exact h
    rw [Option.some.injEq] at h2
    refine Or.inl ?_
    rw [← h2]
  | none =>
    by_cases hk : k = k'
    · subst hk
      have h2 : some v' = some v := by
        rw [← mapFind_mapInsert_self m k v' hm]
        exact h
      rw [Option.some.injEq] at h2
      exact Or.inr ⟨rfl, h2.symm⟩
    · rw [mapFind_mapInsert_other m k' v' k hk hm] at h
      simp at h

theorem mapFind_isSome_iff_mem_keys (k : Path) :
    ∀ entries : List (Path × Filedes),
      (mapFind k entries).isSome = true ↔ k ∈ entries.map Prod.fst
  | [] => by simp [mapFind]
  | e :: rest => by
    rw [List.map_cons, List.mem_cons]
    by_cases hk : k = e.1
    · rw [mapFind, if_pos hk]
      exact ⟨fun _ => Or.inl hk, fun _ => rfl⟩
    · rw [mapFind, if_neg hk, mapFind_isSome_iff_mem_keys k rest]
      constructor
      · exact fun hm => Or.inr hm
      · rintro (he | hm)
        · exact absurd he hk
        · exact hm

/-! ### Helper lemmas about the index build loop -/

theorem buildEntries_persist (fd : Nat) (pre : Path) (k : Path) (v : Filedes) :
    ∀ (files : List TarFile) (acc : List (Path × Filedes)),
      mapFind k acc = some v →
      mapFind k (buildEntries fd pre files acc) = some v
  | [], _, h => h
  | f :: rest, acc, h => by
    rw [buildEntries_cons]
    split
    · exact buildEntries_persist fd pre k v rest _
        (mapFind_mapInsert_some acc _ _ k v h)
    · exact buildEntries_persist fd pre k v rest acc h

theorem buildEntries_isSome (fd : Nat) (pre : Path) (k : Path) :
    ∀ (files : List TarFile) (acc : List (Path × Filedes)),
      (mapFind k (buildEntries fd pre files acc)).isSome = true ↔
        (mapFind k acc).isSome = true
          ∨ ∃ m ∈ files, isPathPrefix m.path pre = true
              ∧ cutPathPrefix m.path pre = k
  | [], acc => by simp [buildEntries]
  | f :: rest, acc => by
    by_cases hu : isPathPrefix f.path pre = true
    · rw [buildEntries_cons, if_pos hu, buildEntries_isSome fd pre k rest _,
        mapFind_mapInsert_isSome]
      simp only [List.exists_mem_cons_iff, hu, true_and]
      constructor
      · rintro ((hs | hk) | hm)
        · exact Or.inl hs
        · exact Or.inr (Or.inl hk.symm)
        · exact Or.inr (Or.inr hm)
      · rintro (hs | hk | hm)
        · exact Or.inl (Or.inl hs)
        · exact Or.inl (Or.inr hk.symm)
        · exact Or.inr hm
    · rw [buildEntries_cons, if_neg hu, buildEntries_isSome fd pre k rest acc]
      simp only [List.exists_mem_cons_iff]
      constructor
      · rintro (hs | hm)
        · exact Or.inl hs
        · exact Or.inr (Or.inr hm)
      · rintro (hs | hf | hm)
        · exact Or.inl hs
        · exact absurd hf.1 hu
        · exact Or.inr hm

theorem buildEntries_value (fd : Nat) (pre : Path) (k : Path) (v : Filedes) :
    ∀ (files : List TarFile) (acc : List (Path × Filedes)),
      mapFind k (buildEntries fd pre files acc) = some v →
      mapFind k acc = some v
        ∨ ∃ m ∈ files, isPathPrefix m.path pre = true
            ∧ cutPathPrefix m.path pre = k ∧ v = ⟨fd, m.start, m.stop⟩
  | [], _, h => Or.inl h
  | f :: rest, acc, h => by
    by_cases hu : isPathPrefix f.path pre = true
    · rw [buildEntries_cons, if_pos hu] at h
      rcases buildEntries_value fd pre k v rest _ h with hacc | ⟨m, hm, hmu, hmc, hmv⟩
      · rcases mapFind_mapInsert_inv acc _ _ k v hacc with hacc' | ⟨hk, hv⟩
        · exact Or.inl hacc'
        · exact Or.inr ⟨f, by simp, hu, hk.symm, hv⟩
      · exact Or.inr ⟨m, List.mem_cons_of_mem _ hm, hmu, hmc, hmv⟩
    · rw [buildEntries_cons, if_neg hu] at h
      rcases buildEntries_value fd pre k v rest acc h with hacc | ⟨m, hm, hmu, hmc, hmv⟩
      · exact Or.inl hacc
      · exact Or.inr ⟨m, List.mem_cons_of_mem _ hm, hmu, hmc, hmv⟩

theorem buildEntries_first (fd : Nat) (pre : Path) (k : Path) (m : TarFile) :
    ∀ (files : List TarFile) (acc : List (Path × Filedes)),
      mapFind k acc = none →
      files.find?
          (fun f => isPathPrefix f.path pre && (cutPathPrefix f.path pre == k))
        = some m →
      mapFind k (buildEntries fd pre files acc) = some ⟨fd, m.start, m.stop⟩
  | [], _, _, hfind => by simp at hfind
  | f :: rest, acc, hacc, hfind => by
    by_cases hpred :
        (isPathPrefix f.path pre && (cutPathPrefix f.path pre == k)) = true
    · rw [List.find?_cons] at hfind
      simp only [hpred] at hfind
      rw [Option.some.injEq] at hfind
      subst hfind
      obtain ⟨hu, hc⟩ : isPathPrefix f.path pre = true
          ∧ cutPathPrefix f.path pre = k := by
        simpa using hpred
      rw [buildEntries_cons, if_pos hu]
      exact buildEntries_persist fd pre k _ rest _
        (by rw [hc]; exact mapFind_mapInsert_self acc k _ hacc)
    · rw [List.find?_cons] at hfind
      rw [Bool.not_eq_true] at hpred
      simp only [hpred] at hfind
      by_cases hu : isPathPrefix f.path pre = true
      · have hc : cutPathPrefix f.path pre ≠ k := by
          intro he
          rw [he, hu] at hpred
          simp at hpred
        rw [buildEntries_cons, if_pos hu]
        exact buildEntries_first fd pre k m rest _
          (mapFind_mapInsert_other acc _ _ k (fun he => hc he.symm) hacc) hfind
      · rw [buildEntries_cons, if_neg hu]
        exact buildEntries_first fd pre k m rest acc hacc hfind

/-! ### Helper lemmas about findPrefix -/

theorem findPrefix_ok (ap h : String) :
    ∀ (files : List TarFile) (pre : Path),
      findPrefix ap h files = .ok pre →
      ∃ m ∈ files, pathFilename m.path = h ∧ pre = parentPath m.path
  | [], _, hok => by simp [findPrefix] at hok
  | f :: rest, pre, hok => by
    by_cases hf : pathFilename f.path = h
    · rw [findPrefix_cons, if_pos hf, Except.ok.injEq] at hok
      exact ⟨f, by simp, hf, hok.symm⟩
    · rw [findPrefix_cons, if_neg hf] at hok
      obtain ⟨m, hm, hfn, hp⟩ := findPrefix_ok ap h rest pre hok
      exact ⟨m, List.mem_cons_of_mem _ hm, hfn, hp⟩

theorem findPrefix_absent (ap hint : String) :
    ∀ files : List TarFile,
      (∀ m ∈ files, pathFilename m.path ≠ hint) →
      findPrefix ap hint files = .error (.runtimeError
        ("No \"" ++ hint ++ "\" found in the tarball archive at \""
          ++ ap ++ "\"."))
  | [], _ => rfl
  | f :: rest, habs => by
    have hf : pathFilename f.path ≠ hint := habs f (by simp)
    rw [findPrefix_cons, if_neg hf]
    exact findPrefix_absent ap hint rest
      (fun m hm => habs m (List.mem_cons_of_mem _ hm))

/-- C1: tar-index construction inserts, for exactly the members whose path
lies under the resolved prefix (the anchor member's parent directory when a
hint is given, the empty path otherwise), the stripped member path mapped to
the descriptor (shared handle, start, end); members outside the prefix are
absent from the index, hence from listMembers and exists. -/
theorem tarIndex_build_contents (fd : Nat) (ap : String) (hint : Option String)
    (files : List TarFile) (idx : TarIndex)
    (hok : TarIndex.build fd ap hint files = .ok idx) :
    ∃ pre : Path,
      (hint = none → pre = []) ∧
      (∀ h : String, hint = some h →
        ∃ m ∈ files, pathFilename m.path = h ∧ pre = parentPath m.path) ∧
      (∀ k : Path, idx.memberExists k = true ↔
        ∃ m ∈ files, isPathPrefix m.path pre = true
          ∧ cutPathPrefix m.path pre = k) ∧
      (∀ k : Path, k ∈ idx.listMembers ↔
        ∃ m ∈ files, isPathPrefix m.path pre = true
          ∧ cutPathPrefix m.path pre = k) ∧
      (∀ (k : Path) (v : Filedes), mapFind k idx.entries = some v →
        ∃ m ∈ files, isPathPrefix m.path pre = true
          ∧ cutPathPrefix m.path pre = k ∧ v = ⟨fd, m.start, m.stop⟩) := by
  have main : ∀ pre : Path,
      idx = ⟨ap, buildEntries fd pre files []⟩ →
      (∀ k : Path, idx.memberExists k = true ↔
        ∃ m ∈ files, isPathPrefix m.path pre = true
          ∧ cutPathPrefix m.path pre = k) ∧
      (∀ k : Path, k ∈ idx.listMembers ↔
        ∃ m ∈ files, isPathPrefix m.path pre = true
          ∧ cutPathPrefix m.path pre = k) ∧
      (∀ (k : Path) (v : Filedes), mapFind k idx.entries = some v →
        ∃ m ∈ files, isPathPrefix m.path pre = true
          ∧ cutPathPrefix m.path pre = k ∧ v = ⟨fd, m.start, m.stop⟩) := by
    intro pre hidx
    subst hidx
    refine ⟨?_, ?_, ?_⟩
    · intro k
      unfold TarIndex.memberExists
      rw [show (TarIndex.mk ap (buildEntries fd pre files [])).entries
            = buildEntries fd pre files [] from rfl,
        buildEntries_isSome fd pre k files []]
      simp [mapFind]
    · intro k
      unfold TarIndex.listMembers
      rw [show (TarIndex.mk ap (buildEntries fd pre files [])).entries
            = buildEntries fd pre files [] from rfl,
        ← mapFind_isSome_iff_mem_keys k,
        buildEntries_isSome fd pre k files []]
      simp [mapFind]
    · intro k v hv
      rw [show (TarIndex.mk ap (buildEntries fd pre files [])).entries
            = buildEntries fd pre files [] from rfl] at hv
      rcases buildEntries_value fd pre k v files [] hv with hacc | hm
      · simp [mapFind] at hacc
      · exact hm
  cases hint with
  | none =>
    rw [tarIndexBuild_none, Except.ok.injEq] at hok
    refine ⟨[], fun _ => rfl, by simp, main [] hok.symm⟩
  | some h =>
    rw [tarIndexBuild_some] at hok
    cases hfp : findPrefix ap h files with
    | error e =>
      rw [hfp] at hok
      simp at hok
    | ok pre =>
      rw [hfp, Except.ok.injEq] at hok
      refine ⟨pre, by simp, ?_, main pre hok.symm⟩
      intro h2 hh2
      rw [Option.some.injEq] at hh2
      subst hh2
      exact findPrefix_ok ap h files pre hfp

theorem tarIndex_build_contents_witness :
    TarIndex.build 7 "arch.tar" (some "a") exFilesDir = .ok exIndexDir ∧
    ∃ pre : Path,
      ((some "a" : Option String) = none → pre = []) ∧
      (∀ h : String, (some "a" : Option String) = some h →
        ∃ m ∈ exFilesDir, pathFilename m.path = h ∧ pre = parentPath m.path) ∧
      (∀ k : Path, exIndexDir.memberExists k = true ↔
        ∃ m ∈ exFilesDir, isPathPrefix m.path pre = true
          ∧ cutPathPrefix m.path pre = k) ∧
      (∀ k : Path, k ∈ exIndexDir.listMembers ↔
        ∃ m ∈ exFilesDir, isPathPrefix m.path pre = true
          ∧ cutPathPrefix m.path pre = k) ∧
      (∀ (k : Path) (v : Filedes), mapFind k exIndexDir.entries = some v →
        ∃ m ∈ exFilesDir, isPathPrefix m.path pre = true
          ∧ cutPathPrefix m.path pre = k ∧ v = ⟨7, m.start, m.stop⟩) :=
  ⟨rfl, tarIndex_build_contents 7 "arch.tar" (some "a") exFilesDir exIndexDir rfl⟩

/-- C5 counterexample: with a single member a and hint anchor b, both absent-
anchor failure sites produce a plain std::runtime_error, not the NotFound
type the claim names (construction does fail, but not with NotFound). -/
theorem hint_anchor_missing_no_notFound :
    exceptIsOk (TarIndex.build 7 "arch.tar" (some "b") [⟨["a"], 0, 10⟩]) = false
      ∧ errIsNotFound (TarIndex.build 7 "arch.tar" (some "b") [⟨["a"], 0, 10⟩])
          = false
      ∧ errIsNotFound (factory false "application/x-tar" "arch.tar" 7
          [⟨["a"], 0, 10⟩] (some "b")) = false := by
  decide

/-- C5 (amended): for every tarball and supplied hint anchor matching no
member's filename, backend construction (and hence façade construction
through the factory) fails — with a plain std::runtime_error naming the
anchor and the archive, rather than a distinct NotFound exception type. -/
theorem hint_anchor_missing_fails (hasHttp : Bool) (fd : Nat)
    (ap anchor : String) (files : List TarFile)
    (habs : ∀ m ∈ files, pathFilename m.path ≠ anchor) :
    TarIndex.build fd ap (some anchor) files
      = .error (.runtimeError
          ("No \"" ++ anchor ++ "\" found in the tarball archive at \""
            ++ ap ++ "\".")) ∧
    factory hasHttp "application/x-tar" ap fd files (some anchor)
      = .error (.runtimeError
          ("No \"" ++ anchor ++ "\" found in the tarball archive at \""
            ++ ap ++ "\".")) := by
  have hb : TarIndex.build fd ap (some anchor) files
      = .error (.runtimeError
          ("No \"" ++ anchor ++ "\" found in the tarball archive at \""
            ++ ap ++ "\".")) := by
    rw [tarIndexBuild_some, findPrefix_absent ap anchor files habs]
  refine ⟨hb, ?_⟩
  unfold factory
  rw [if_neg (by decide : ¬("application/x-tar" = "inode/directory")),
    if_pos rfl, hb]
  rfl

theorem hint_anchor_missing_fails_witness :
    (∀ m ∈ ([⟨["a"], 0, 10⟩] : List TarFile), pathFilename m.path ≠ "b") ∧
    (TarIndex.build 3 "t.tar" (some "b") [⟨["a"], 0, 10⟩]
        = .error (.runtimeError
            ("No \"" ++ "b" ++ "\" found in the tarball archive at \""
              ++ "t.tar" ++ "\".")) ∧
      factory false "application/x-tar" "t.tar" 3 [⟨["a"], 0, 10⟩] (some "b")
        = .error (.runtimeError
            ("No \"" ++ "b" ++ "\" found in the tarball archive at \""
              ++ "t.tar" ++ "\"."))) :=
  ⟨by decide,
    hint_anchor_missing_fails false 3 "t.tar" "b" [⟨["a"], 0, 10⟩] (by decide)⟩

/-- C6 counterexample: looking up a member absent from a concrete index
fails — but with a plain std::runtime_error, not the NotFound type the claim
names. -/
theorem tarIndex_file_absent_no_notFound :
    exceptIsOk ((TarIndex.mk "arch.tar" [(["a"], ⟨7, 0, 10⟩)]).file ["x"])
        = false
      ∧ errIsNotFound ((TarIndex.mk "arch.tar" [(["a"], ⟨7, 0, 10⟩)]).file ["x"])
          = false := by
  decide

/-- The definitional unfolding of TarIndex::file's lookup-and-throw body. -/
theorem tarIndexFile_eq (idx : TarIndex) (p : Path) :
    idx.file p
      = match mapFind p idx.entries with
        | some v => .ok v
        | none => .error (.runtimeError
            ("File \"" ++ renderPath p ++ "\" not found in the archive at \""
              ++ idx.archivePath ++ "\".")) := rfl

/-- C6 (amended): lookup succeeds exactly when the stripped relative path is
an exact match of an index key; when absent, it fails — with a plain
std::runtime_error rather than a distinct NotFound type — whose message
names both the archive path and the requested member path. -/
theorem tarIndex_file_lookup (idx : TarIndex) (p : Path) :
    (∀ v : Filedes, mapFind p idx.entries = some v → idx.file p = .ok v) ∧
    (exceptIsOk (idx.file p) = true ↔ (mapFind p idx.entries).isSome = true) ∧
    (mapFind p idx.entries = none →
      idx.file p = .error (.runtimeError
        ("File \"" ++ renderPath p ++ "\" not found in the archive at \""
          ++ idx.archivePath ++ "\".")) ∧
      ∃ a b c : String,
        ("File \"" ++ renderPath p ++ "\" not found in the archive at \""
          ++ idx.archivePath ++ "\".")
          = a ++ renderPath p ++ b ++ idx.archivePath ++ c) := by
  refine ⟨?_, ?_, ?_⟩
  · intro v hv
    rw [tarIndexFile_eq, hv]
  · rw [tarIndexFile_eq]
    cases hv : mapFind p idx.entries with
    | some v => simp [exceptIsOk]
    | none => simp [exceptIsOk]
  · intro hv
    rw [tarIndexFile_eq, hv]
    exact ⟨rfl, "File \"", "\" not found in the archive at \"", "\".", rfl⟩

/-- C9: when two distinct members strip to the same relative path under the
resolved prefix, the built index maps that path to the byte range of the
member that occurs first in the member list; later duplicates are silently
ignored because insertion never overwrites an existing key. -/
theorem tarIndex_first_wins (fd : Nat) (pre : Path) (files : List TarFile)
    (k : Path) (m : TarFile)
    (hfirst : files.find?
        (fun f => isPathPrefix f.path pre && (cutPathPrefix f.path pre == k))
      = some m) :
    mapFind k (buildEntries fd pre files []) = some ⟨fd, m.start, m.stop⟩ :=
  buildEntries_first fd pre k m files [] rfl hfirst

theorem tarIndex_first_wins_witness :
    ([⟨["a"], 0, 5⟩, ⟨["a"], 10, 20⟩] : List TarFile).find?
        (fun f => isPathPrefix f.path [] && (cutPathPrefix f.path [] == ["a"]))
      = some ⟨["a"], 0, 5⟩ ∧
    mapFind ["a"] (buildEntries 7 [] [⟨["a"], 0, 5⟩, ⟨["a"], 10, 20⟩] [])
      = some ⟨7, 0, 5⟩ :=
  ⟨by decide,
    tarIndex_first_wins 7 [] [⟨["a"], 0, 5⟩, ⟨["a"], 10, 20⟩] ["a"]
      ⟨["a"], 0, 5⟩ (by decide)⟩

theorem tarIStream_size_buffer_witness :
    (3 : Nat) < 12 ∧
    ((TarIStream.create ["m"] ⟨5, 3, 12⟩).reportedSize = some 9 ∧
      ((TarIStream.create ["m"] ⟨5, 3, 12⟩).size : Int) = (12 : Int) - (3 : Int) ∧
      (TarIStream.create ["m"] ⟨5, 3, 12⟩).bufSize = 64 * 1024) :=
  ⟨by decide, tarIStream_size_buffer ["m"] ⟨5, 3, 12⟩ (by decide)⟩

/-! ### Helper lemmas about the hint matcher -/

theorem matcher_feed_eq_some (m : Matcher) (p : Path) (i : Nat)
    (hfi : firstIdx (pathFilename p) (m.hint.take m.bestIndex) = some i) :
    m.feed p = (⟨m.hint, i, p⟩, i == 0) := by
  unfold Matcher.feed
  rw [hfi]

theorem matcher_feed_eq_none (m : Matcher) (p : Path)
    (hfi : firstIdx (pathFilename p) (m.hint.take m.bestIndex) = none) :
    m.feed p = (m, m.bestIndex == 0) := by
  unfold Matcher.feed
  rw [hfi]

theorem matcher_feed_hint (m : Matcher) (p : Path) :
    ((m.feed p).1).hint = m.hint := by
  cases hfi : firstIdx (pathFilename p) (m.hint.take m.bestIndex) with
  | some i => rw [matcher_feed_eq_some m p i hfi]
  | none => rw [matcher_feed_eq_none m p hfi]

theorem matcher_feed_bestIndex_le (m : Matcher) (p : Path) :
    ((m.feed p).1).bestIndex ≤ m.bestIndex := by
  cases hfi : firstIdx (pathFilename p) (m.hint.take m.bestIndex) with
  | some i =>
    rw [matcher_feed_eq_some m p i hfi]
    have hlt := (firstIdx_some_spec (pathFilename p) "" _ i hfi).1
    have hlen : (m.hint.take m.bestIndex).length ≤ m.bestIndex := by
      rw [List.length_take]
      omega
    show i ≤ m.bestIndex
    omega
  | none =>
    rw [matcher_feed_eq_none m p hfi]

theorem matcher_feed_cases (m : Matcher) (p : Path) :
    (m.feed p).1 = m ∨
      (((m.feed p).1).bestIndex < m.bestIndex
        ∧ ((m.feed p).1).bestMatch = p
        ∧ m.hint.getD (((m.feed p).1).bestIndex) "" = pathFilename p) := by
  cases hfi : firstIdx (pathFilename p) (m.hint.take m.bestIndex) with
  | none => exact Or.inl (by rw [matcher_feed_eq_none m p hfi])
  | some i =>
    obtain ⟨hlen, hget, -⟩ := firstIdx_some_spec (pathFilename p) "" _ i hfi
    have hlt : i < m.bestIndex := by
      rw [List.length_take] at hlen
      omega
    refine Or.inr ?_
    rw [matcher_feed_eq_some m p i hfi]
    refine ⟨hlt, rfl, ?_⟩
    show m.hint.getD i "" = pathFilename p
    rw [← getD_take "" m.hint m.bestIndex i hlt]
    exact hget

theorem matcher_run_hint :
    ∀ (ps : List Path) (m : Matcher), (m.run ps).hint = m.hint
  | [], _ => rfl
  | p :: ps, m => by
    show ((((m.feed p).1)).run ps).hint = m.hint
    rw [matcher_run_hint ps _, matcher_feed_hint]

theorem matcher_run_cases :
    ∀ (ps : List Path) (m : Matcher),
      m.run ps = m ∨
        ∃ p ∈ ps, (m.run ps).bestMatch = p
          ∧ m.hint.getD ((m.run ps).bestIndex) "" = pathFilename p
  | [], _ => Or.inl rfl
  | p :: ps, m => by
    have hstep : m.run (p :: ps) = ((m.feed p).1).run ps := rfl
    rcases matcher_run_cases ps ((m.feed p).1) with heq | ⟨q, hq, hbm, hgd⟩
    · rcases matcher_feed_cases m p with hfeq | ⟨_, hbm, hgd⟩
      · exact Or.inl (by rw [hstep, heq, hfeq])
      · refine Or.inr ⟨p, by simp, ?_, ?_⟩
        · rw [hstep, heq]
          exact hbm
        · rw [hstep, heq]
          exact hgd
    · refine Or.inr ⟨q, List.mem_cons_of_mem _ hq, ?_, ?_⟩
      · rw [hstep]
        exact hbm
      · rw [hstep]
        rw [matcher_feed_hint] at hgd
        exact hgd

/-- C3: each matcher call compares the path's filename against candidates at
indices strictly below the current bestIndex in ascending order, on the
first match at index i sets bestIndex = i and bestMatch to that path, and
returns true exactly when bestIndex is 0 after the update; with candidates
[config.json, CONFIG.JSON] and first observed path sub/config.json the state
becomes (index 0, sub/config.json) and the stop signal is true. -/
theorem matcher_feed_spec (m : Matcher) (p : Path)
    (hb : m.bestIndex ≤ m.hint.length) :
    ((m.feed p).2 = true ↔ ((m.feed p).1).bestIndex = 0) ∧
    (∀ i : Nat, i < m.bestIndex → m.hint.getD i "" = pathFilename p →
      (∀ j : Nat, j < i → m.hint.getD j "" ≠ pathFilename p) →
      m.feed p = (⟨m.hint, i, p⟩, i == 0)) ∧
    ((∀ i : Nat, i < m.bestIndex → m.hint.getD i "" ≠ pathFilename p) →
      m.feed p = (m, m.bestIndex == 0)) ∧
    (Matcher.init ["config.json", "CONFIG.JSON"]).feed ["sub", "config.json"]
      = (⟨["config.json", "CONFIG.JSON"], 0, ["sub", "config.json"]⟩, true) := by
  refine ⟨?_, ?_, ?_, by decide⟩
  · cases hfi : firstIdx (pathFilename p) (m.hint.take m.bestIndex) with
    | some i =>
      rw [matcher_feed_eq_some m p i hfi]
      show (i == 0) = true ↔ i = 0
      simp
    | none =>
      rw [matcher_feed_eq_none m p hfi]
      show (m.bestIndex == 0) = true ↔ m.bestIndex = 0
      simp
  · intro i hi hget hmin
    have hlen : i < (m.hint.take m.bestIndex).length := by
      rw [List.length_take]
      omega
    have hfi : firstIdx (pathFilename p) (m.hint.take m.bestIndex) = some i := by
      refine firstIdx_eq_some_of (pathFilename p) "" _ i hlen ?_ ?_
      · rw [getD_take "" m.hint m.bestIndex i hi]
        exact hget
      · intro j hj
        rw [getD_take "" m.hint m.bestIndex j (Nat.lt_trans hj hi)]
        exact hmin j hj
    exact matcher_feed_eq_some m p i hfi
  · intro hno
    have hfi : firstIdx (pathFilename p) (m.hint.take m.bestIndex) = none := by
      cases hfi : firstIdx (pathFilename p) (m.hint.take m.bestIndex) with
      | none => rfl
      | some i =>
        obtain ⟨hlen, hget, -⟩ := firstIdx_some_spec (pathFilename p) "" _ i hfi
        rw [List.length_take] at hlen
        have hi : i < m.bestIndex := by omega
        rw [getD_take "" m.hint m.bestIndex i hi] at hget
        exact absurd hget (hno i hi)
    exact matcher_feed_eq_none m p hfi

theorem matcher_feed_spec_witness :
    (Matcher.init ["a.txt"]).bestIndex ≤ (Matcher.init ["a.txt"]).hint.length ∧
    (((Matcher.init ["a.txt"]).feed ["d", "a.txt"]).2 = true ↔
      (((Matcher.init ["a.txt"]).feed ["d", "a.txt"]).1).bestIndex = 0) :=
  ⟨by decide,
    (matcher_feed_spec (Matcher.init ["a.txt"]) ["d", "a.txt"] (by decide)).1⟩

/-- C10: across any sequence of observed paths fed to one matcher, bestIndex
is monotonically non-increasing call by call; a call either leaves the state
unchanged or strictly lowers bestIndex while recording the observed path as
bestMatch (so a later path matching only a higher, less preferred index
never replaces bestMatch); and whenever the final bestIndex is below the
candidate count, bestMatch is an observed path whose filename equals the
candidate at bestIndex. -/
theorem matcher_run_invariant (hint : List String) (ps : List Path) :
    (∀ (m : Matcher) (q : Path), ((m.feed q).1).bestIndex ≤ m.bestIndex) ∧
    (∀ (m : Matcher) (q : Path),
      (m.feed q).1 = m ∨
        (((m.feed q).1).bestIndex < m.bestIndex
          ∧ ((m.feed q).1).bestMatch = q
          ∧ m.hint.getD (((m.feed q).1).bestIndex) "" = pathFilename q)) ∧
    (((Matcher.init hint).run ps).bestIndex < hint.length →
      ∃ p ∈ ps, ((Matcher.init hint).run ps).bestMatch = p
        ∧ hint.getD (((Matcher.init hint).run ps).bestIndex) ""
            = pathFilename p) := by
  refine ⟨matcher_feed_bestIndex_le, matcher_feed_cases, ?_⟩
  intro hlt
  rcases matcher_run_cases ps (Matcher.init hint) with heq | ⟨p, hp, hbm, hgd⟩
  · rw [heq] at hlt
    simp [Matcher.init] at hlt
  · exact ⟨p, hp, hbm, hgd⟩

theorem matcher_run_invariant_witness :
    ((Matcher.init ["n.txt"]).run [["q", "n.txt"]]).bestIndex
        < (["n.txt"] : List String).length ∧
    ∃ p ∈ [(["q", "n.txt"] : Path)],
      ((Matcher.init ["n.txt"]).run [["q", "n.txt"]]).bestMatch = p
        ∧ (["n.txt"] : List String).getD
            (((Matcher.init ["n.txt"]).run [["q", "n.txt"]]).bestIndex) ""
          = pathFilename p :=
  ⟨by decide,
    (matcher_run_invariant ["n.txt"] [["q", "n.txt"]]).2.2 (by decide)⟩

end Roarchive
